import Mathlib

/-!
Verification of the include-dependency resolution engine of the
skunkworks documentation extension.  Paths are embedded as lists of
segments of absolute, separator-free path components; the JavaScript
string operations used by the source (trim, startsWith, split, endsWith,
includes) are embedded as executable functions on character lists.
-/

set_option maxRecDepth 10000

/-- Characters removed by the JavaScript `String.prototype.trim`
(the whitespace classes relevant to the scanned documentation files). -/
def jsWhitespaceChar (c : Char) : Bool :=
  c = ' ' || c = '\t' || c = '\n' || c = '\r' || c = '\x0b' || c = '\x0c' || c = ' ' || c = '﻿'

/-- Trim leading and trailing whitespace from a character list. -/
def trimChars (l : List Char) : List Char :=
  ((l.dropWhile jsWhitespaceChar).reverse.dropWhile jsWhitespaceChar).reverse

/-- Embedding of JavaScript `s.trim()`. -/
def jsTrim (s : String) : String := ⟨trimChars s.data⟩

/-- Does the second list start with the first one? -/
def hasPrefixChars : List Char → List Char → Bool
  | [], _ => true
  | _ :: _, [] => false
  | a :: as, b :: bs => a == b && hasPrefixChars as bs

/-- Embedding of JavaScript `s.startsWith(pat)`. -/
def jsStartsWith (s pat : String) : Bool := hasPrefixChars pat.data s.data

/-- Embedding of JavaScript `s.endsWith(pat)`. -/
def jsEndsWith (s pat : String) : Bool := hasPrefixChars pat.data.reverse s.data.reverse

/-- Embedding of JavaScript `s.substring(n)` (drop the first `n` UTF-16 units;
all strings handled by the source are ASCII, so characters coincide). -/
def strDrop (s : String) (n : Nat) : String := ⟨s.data.drop n⟩

/-- Drop the last `n` characters of a string. -/
def strDropRight (s : String) (n : Nat) : String := ⟨s.data.take (s.data.length - n)⟩

/-- Splitting worker: `fuel` bounds the recursion and always suffices when
called with the length of the scanned list plus one. -/
def splitCharsAux (sep : List Char) : Nat → List Char → List Char → List (List Char)
  | 0, acc, rest => [acc.reverse ++ rest]
  | _ + 1, acc, [] => [acc.reverse]
  | fuel + 1, acc, c :: rest =>
    if hasPrefixChars sep (c :: rest) then
      acc.reverse :: splitCharsAux sep fuel [] ((c :: rest).drop sep.length)
    else
      splitCharsAux sep fuel (c :: acc) rest

/-- Embedding of JavaScript `s.split(sep)` for a non-empty separator
(the source only ever splits on `"::"`, `"/"` and `"\n"`). -/
def jsSplit (s sep : String) : List String :=
  if sep.data.isEmpty then [s]
  else (splitCharsAux sep.data (s.data.length + 1) [] s.data).map (fun l => ⟨l⟩)

/-- Join strings with a separator (used to state the spec-side reading of
"the entire remainder of the line"). -/
def strIntercalate (sep : String) : List String → String
  | [] => ""
  | [s] => s
  | s :: rest => s ++ sep ++ strIntercalate sep rest

/-- Render the path segments below the root as a relative path string,
as `path.relative` produces when the first path is an ancestor. -/
def joinSegs : List String → String
  | [] => ""
  | [s] => s
  | s :: rest => s ++ "/" ++ joinSegs rest

/-- Does `hay` contain `needle` as a contiguous run? -/
def hasInfixChars (needle hay : List Char) : Bool :=
  hasPrefixChars needle hay ||
    match hay with
    | [] => false
    | _ :: rest => hasInfixChars needle rest

/-- Embedding of JavaScript `hay.includes(needle)`. -/
def jsIncludes (hay needle : String) : Bool := hasInfixChars needle.data hay.data

/-- Lexicographic comparison of character lists by code point, the order
used by the default JavaScript `Array.prototype.sort` on these strings. -/
def charListLe : List Char → List Char → Bool
  | [], _ => true
  | _ :: _, [] => false
  | a :: as, b :: bs => if a = b then charListLe as bs else decide (a < b)

/-- Lexicographic order on strings. -/
def strLe (a b : String) : Prop := charListLe a.data b.data = true

instance : DecidableRel strLe := fun a b =>
  inferInstanceAs (Decidable (charListLe a.data b.data = true))

/-- Embedding of JavaScript `arr.sort()` on an array of strings: the sorted
permutation with respect to the lexicographic order. -/
def sortStrings (l : List String) : List String := List.insertionSort strLe l

/-- One step of `path.normalize` on the segments of an absolute path:
empty and `.` segments vanish, `..` pops the last segment (at the root it
stays at the root), anything else is appended. -/
def normStep (stack : List String) (seg : String) : List String :=
  if seg = "" ∨ seg = "." then stack
  else if seg = ".." then stack.dropLast
  else stack ++ [seg]

/-- Embedding of `path.normalize` on an absolute path given by segments. -/
def normSegs (segs : List String) : List String := segs.foldl normStep []

/-- A segment of a normalized path: non-empty and not a dot segment. -/
def goodSeg (s : String) : Prop := s ≠ "" ∧ s ≠ "." ∧ s ≠ ".."

/-- The presumed Sphinx source directory under the scanned root
(`path.join(directory, "source")` in the source). -/
def sphinxSourceDir (directory : List String) : List String := directory ++ ["source"]

/-- Embedding of the include-target resolution in `resolveIncludeDependencies`:
an absolute-style target (leading `/`) is stripped of its leading separator and
resolved under the Sphinx source directory; a relative target is resolved
against the directory containing the includer; both results are normalized. -/
def resolveTarget (directory includerPath : List String) (includeDirectivePath : String) : List String :=
  if jsStartsWith includeDirectivePath "/" then
    normSegs (sphinxSourceDir directory ++ jsSplit (strDrop includeDirectivePath 1) "/")
  else
    normSegs (includerPath.dropLast ++ jsSplit includeDirectivePath "/")

/-- Embedding of Node's `path.extname` on a file name. -/
def extname (name : String) : String :=
  let tail := name.data.reverse.takeWhile (fun c => decide (c ≠ '.'))
  if tail.length = name.data.length then ""
  else if name.data.length - tail.length - 1 = 0 then ""
  else ⟨'.' :: tail.reverse⟩

/-- File extensions considered when scanning for include directives. -/
def RELEVANT_FILE_EXTENSIONS : List String := [".rst", ".txt"]

/-- Second-level directories whose pages get no Netlify link. -/
def IGNORED_DIRS_FOR_NETLIFY_LINKS : List String := ["includes", "images", "examples"]

/-- A filesystem tree: a directory's `none` children model a directory
whose `readdirSync` fails (permission denied, race-deleted). -/
inductive FsNode where
  | file (name : String)
  | dir (name : String) (children : Option (List FsNode))

mutual

/-- Walk the entries of one readable directory located at `dirPath`,
in the order of `walkSync`'s loop over `readdirSync` results. -/
def walkChildren (dirPath : List String) : List FsNode → List (List String)
  | [] => []
  | d :: rest => walkEntry dirPath d ++ walkChildren dirPath rest

/-- Handle one directory entry: relevant files are yielded, `.git` and
`node_modules` are skipped, subdirectories are walked recursively, and a
subdirectory whose listing fails contributes nothing. -/
def walkEntry (dirPath : List String) : FsNode → List (List String)
  | .file name =>
    if extname name ∈ RELEVANT_FILE_EXTENSIONS then [dirPath ++ [name]] else []
  | .dir _ none => []
  | .dir name (some children) =>
    if name = ".git" ∨ name = "node_modules" then []
    else walkChildren (dirPath ++ [name]) children

end

/-- Embedding of `walkSync(dir)` for the tree rooted at `dirPath`:
an unreadable root (or a non-directory) yields nothing. -/
def walkSync (dirPath : List String) : FsNode → List (List String)
  | .file _ => []
  | .dir _ none => []
  | .dir _ (some children) => walkChildren dirPath children

/-- Targets contributed by one line of a scanned file, following
`extractIncludeFiles`: trim the line, require the `.. include::` or
`.. literalinclude::` marker, split on `"::"`, take element 1, trim it,
and keep it when non-empty. -/
def lineTarget (line : String) : List String :=
  let trimmedLine := jsTrim line
  if jsStartsWith trimmedLine ".. include::" || jsStartsWith trimmedLine ".. literalinclude::" then
    let parts := jsSplit trimmedLine "::"
    if 1 < parts.length then
      let includePath := jsTrim (parts.getD 1 "")
      if includePath ≠ "" then [includePath] else []
    else []
  else []

/-- The include-directive marker test of `extractIncludeFiles`. -/
def markerHolds (trimmedLine : String) : Bool :=
  jsStartsWith trimmedLine ".. include::" || jsStartsWith trimmedLine ".. literalinclude::"

/-- Extraction over a whole file content: split into lines and collect the
per-line targets in order, as the loop in `extractIncludeFiles` does. -/
def extractIncludesFromContent (content : String) : List String :=
  (jsSplit content "\n").foldl (fun acc line => acc ++ lineTarget line) []

/-- Modelled from the spec: the reading of the extraction rule in which the
raw target is "the entire remainder of the line" after the first `"::"`
separator, trimmed; used to compare the spec's wording with the code. -/
def lineTargetFullRemainder (line : String) : List String :=
  let trimmedLine := jsTrim line
  if jsStartsWith trimmedLine ".. include::" || jsStartsWith trimmedLine ".. literalinclude::" then
    match jsSplit trimmedLine "::" with
    | [] => []
    | [_] => []
    | _ :: rest =>
      let includePath := jsTrim (strIntercalate "::" rest)
      if includePath ≠ "" then [includePath] else []
  else []

/-- The filesystem operations used by `extractIncludeFiles`; `readFileSync`
returns `Except.error` when the read throws (encoding error, race-deleted). -/
structure FileSystem where
  existsSync : List String → Bool
  statIsFile : List String → Bool
  readFileSync : List String → Except Unit String

/-- Embedding of `extractIncludeFiles`: a missing or non-regular file gives
the normal empty result, a throwing read is caught and yields whatever was
pushed before the failure (nothing, since the read precedes the loop). -/
def extractIncludeFiles (fsys : FileSystem) (filePath : List String) : List String :=
  if fsys.existsSync filePath = false || fsys.statIsFile filePath = false then []
  else
    match fsys.readFileSync filePath with
    | .error _ => []
    | .ok content => extractIncludesFromContent content

/-- Embedding of `url.replace(/\/$/, "")`. -/
def stripTrailingSlash (url : String) : String :=
  if jsEndsWith url "/" then strDropRight url 1 else url

/-- Embedding of `createNetlifyMarkdownLink` from `src/index.ts`; the base
URL is `none` when `DEPLOY_PRIME_URL` is undefined, and the empty string is
equally falsy in the source's guard. -/
def createNetlifyMarkdownLink (fileRelPath : String) (netlifyBaseUrl : Option String) : String :=
  match netlifyBaseUrl with
  | none => fileRelPath
  | some url =>
    if url = "" then fileRelPath
    else
      let pathParts := jsSplit fileRelPath "/"
      if pathParts.length = 0 then fileRelPath
      else if pathParts.headD "" ≠ "source" then fileRelPath
      else if 1 < pathParts.length ∧ pathParts.getD 1 "" ∈ IGNORED_DIRS_FOR_NETLIFY_LINKS then fileRelPath
      else
        let step1 :=
          if jsStartsWith fileRelPath "source/" then strDrop fileRelPath 7
          else if fileRelPath = "source" then "" else fileRelPath
        let step2 :=
          if jsEndsWith step1 ".txt" then strDropRight step1 4
          else if jsEndsWith step1 ".rst" then strDropRight step1 4
          else step1
        let linkTargetPath := if jsStartsWith step2 "/" then step2 else "/" ++ step2
        let finalNetlifyUrl := stripTrailingSlash url ++ linkTargetPath
        "[" ++ fileRelPath ++ "](" ++ finalNetlifyUrl ++ ")"

/-- Embedding of `getChangedFiles`; the outcome of the `git diff` process is
passed in as an `Except` (the collaborator may throw). -/
def getChangedFiles (prBase prHead : String) (diffResult : Except String String) : List String :=
  if prBase = "" ∨ prHead = "" then []
  else
    match diffResult with
    | .error _ => []
    | .ok out => ((jsSplit out "\n").map jsTrim).filter (fun line => 0 < line.length)

/-- Add to an insertion-ordered set, as JavaScript `Set.prototype.add`. -/
def insertSet (l : List String) (x : String) : List String :=
  if x ∈ l then l else l ++ [x]

/-- Collect a list into an insertion-ordered set. -/
def setAdds (xs : List String) : List String := xs.foldl insertSet []

/-- Assignment to a JavaScript object keyed by strings: an existing key is
overwritten in place, a new key is appended. -/
def objSet (m : List (String × List String)) (k : String) (v : List String) :
    List (String × List String) :=
  match m with
  | [] => [(k, v)]
  | (k2, v2) :: rest => if k2 = k then (k2, v) :: rest else (k2, v2) :: objSet rest k v

/-- The keys of an object in insertion order. -/
def keysOf (m : List (String × List String)) : List String := m.map Prod.fst

/-- The reverse include index: absolute target path to includer paths. -/
abbrev IncludeIndex := List (List String × List (List String))

/-- Lookup in the include index (`Map.has` / `Map.get`). -/
def lookupIndex (index : IncludeIndex) (key : List String) : Option (List (List String)) :=
  match index with
  | [] => none
  | (k, v) :: rest => if k = key then some v else lookupIndex rest key

/-- The containment test of the classification loop:
`containerAbsPath.startsWith(directory + path.sep) || containerAbsPath === directory`,
read on segments. -/
def underDirectory : List String → List String → Bool
  | [], _ => true
  | _ :: _, [] => false
  | d :: ds, c :: cs => d == c && underDirectory ds cs

/-- Absolute location of a changed file:
`path.normalize(path.join(directory, relPathFromGit))`. -/
def absOfChanged (directory : List String) (relPathFromGit : String) : List String :=
  normSegs (directory ++ jsSplit relPathFromGit "/")

/-- The set of root-relative includer paths accepted for one index entry:
keep the containers inside the scanned directory, convert each to a path
relative to the root, collecting into a set. -/
def acceptedIncluders (directory : List String) (containers : List (List String)) : List String :=
  setAdds ((containers.filter (fun c => underDirectory directory c)).map
    (fun c => joinSegs (c.drop directory.length)))

/-- The record a changed file would receive were it classified impacted. -/
def impactValue (index : IncludeIndex) (directory : List String) (f : String) : List String :=
  acceptedIncluders directory ((lookupIndex index (absOfChanged directory f)).getD [])

/-- Does the classification loop place this changed file in the impacted map? -/
def takesImpacted (index : IncludeIndex) (directory : List String) (f : String) : Bool :=
  match lookupIndex index (absOfChanged directory f) with
  | some containers => decide (0 < (acceptedIncluders directory containers).length)
  | none => false

/-- One iteration of the classification loop of `resolveIncludeDependencies`
over a changed file, carrying the impacted map and the direct-changes set. -/
def classifyStep (directory : List String) (index : IncludeIndex)
    (acc : List (String × List String) × List String) (relPathFromGit : String) :
    List (String × List String) × List String :=
  match lookupIndex index (absOfChanged directory relPathFromGit) with
  | some containers =>
    let containerRelPaths := acceptedIncluders directory containers
    if 0 < containerRelPaths.length then
      (objSet acc.1 relPathFromGit (sortStrings containerRelPaths), acc.2)
    else
      (acc.1, insertSet acc.2 relPathFromGit)
  | none => (acc.1, insertSet acc.2 relPathFromGit)

/-- Embedding of the classification phase of `resolveIncludeDependencies`:
the reverse index is taken as a parameter (the spec's `classify` contract),
the changed files are processed in order, and the direct-changes set is
returned sorted. -/
def resolveIncludeDependencies (index : IncludeIndex) (directory : List String)
    (changedFilesFromGit : List String) : List (String × List String) × List String :=
  let r := changedFilesFromGit.foldl (classifyStep directory index) ([], [])
  (r.1, sortStrings r.2)

/-- The observable outcome of the `onSuccess` handler. -/
inductive RunReport where
  | failPlugin (msg : String)
  | statusShow (summary : String) (impacted : List (String × List String)) (direct : List String)
deriving DecidableEq

/-- Embedding of the control flow of the `onSuccess` handler: missing
base or head reference fails the build; otherwise the changed files are
obtained, an empty list is reported as "no file changes" through the status
sink, and a non-empty list is classified and reported. -/
def onSuccessOutcome (branch head : String) (diffResult : Except String String)
    (index : IncludeIndex) (directory : List String) : RunReport :=
  if branch = "" then .failPlugin "Error: BRANCH environment variable (PR base branch) not set."
  else if head = "" then .failPlugin "Error: HEAD environment variable (PR head ref) not set."
  else
    let changedFilesFromGit := getChangedFiles branch head diffResult
    if changedFilesFromGit.length = 0 then
      .statusShow "No file changes detected between specified branches." [] []
    else
      let r := resolveIncludeDependencies index directory changedFilesFromGit
      let summary :=
        if 0 < r.1.length ∨ 0 < r.2.length then "Processed include dependencies for changed files."
        else "No impactful documentation changes detected."
      .statusShow summary r.1 r.2

/-- Push onto a JavaScript-object entry, creating the entry when absent
(`if (!m[k]) m[k] = []; m[k].push(v)`). -/
def alistPush (m : List (String × List String)) (k : String) (v : String) :
    List (String × List String) :=
  match m with
  | [] => [(k, [v])]
  | (k2, vs) :: rest => if k2 = k then (k2, vs ++ [v]) :: rest else (k2, vs) :: alistPush rest k v

/-- The substring-matching test of the variant handler: the file content
contains the literal directive followed by the changed path. -/
def variantMatchesFile (changedFile content : String) : Bool :=
  jsIncludes content (".. include:: " ++ changedFile) ||
    jsIncludes content (".. literalinclude:: " ++ changedFile)

/-- One changed file in the variant handler: files outside
`source/includes/` are skipped entirely; otherwise every scanned file whose
content matches is pushed onto the entry for this changed file. -/
def variantStep (files : List (String × String)) (m : List (String × List String))
    (changedFile : String) : List (String × List String) :=
  if jsStartsWith changedFile "source/includes/" then
    files.foldl
      (fun m f => if variantMatchesFile changedFile f.2 then alistPush m changedFile f.1 else m) m
  else m

/-- Embedding of the substring-matching variant handler's impact map
computation over the scanned files (root-relative path and content pairs). -/
def variantClassify (files : List (String × String)) (changedFiles : List String) :
    List (String × List String) :=
  changedFiles.foldl (variantStep files) []

/-! ## Helper lemmas -/

theorem charListLe_total (a b : List Char) : charListLe a b = true ∨ charListLe b a = true := by
  induction a generalizing b with
  | nil => exact Or.inl rfl
  | cons x xs ih =>
    cases b with
    | nil => exact Or.inr rfl
    | cons y ys =>
      by_cases hxy : x = y
      · subst hxy
        rcases ih ys with h | h
        · exact Or.inl (by simp [charListLe, h])
        · exact Or.inr (by simp [charListLe, h])
      · rcases lt_trichotomy x y with h | h | h
        · exact Or.inl (by simp [charListLe, hxy, h])
        · exact absurd h hxy
        · exact Or.inr (by simp [charListLe, Ne.symm hxy, h])

theorem charListLe_trans (a b c : List Char) (h1 : charListLe a b = true)
    (h2 : charListLe b c = true) : charListLe a c = true := by
  induction a generalizing b c with
  | nil => rfl
  | cons x xs ih =>
    cases b with
    | nil => simp [charListLe] at h1
    | cons y ys =>
      cases c with
      | nil => simp [charListLe] at h2
      | cons z zs =>
        by_cases hxy : x = y <;> by_cases hyz : y = z
        · subst hxy; subst hyz
          simp only [charListLe, if_pos rfl] at h1 h2 ⊢
          exact ih ys zs h1 h2
        · subst hxy
          simp only [charListLe, if_pos rfl, if_neg hyz] at h2 ⊢
          exact h2
        · subst hyz
          simp only [charListLe, if_pos rfl, if_neg hxy] at h1 ⊢
          exact h1
        · simp only [charListLe, if_neg hxy, if_neg hyz, decide_eq_true_eq] at h1 h2
          have hxz : x < z := lt_trans h1 h2
          simp [charListLe, ne_of_lt hxz, hxz]

theorem sortStrings_sorted (l : List String) : List.Sorted strLe (sortStrings l) := by
  haveI : IsTotal String strLe := ⟨fun a b => charListLe_total a.data b.data⟩
  haveI : IsTrans String strLe := ⟨fun a b c h1 h2 => charListLe_trans a.data b.data c.data h1 h2⟩
  exact List.sorted_insertionSort strLe l

theorem sortStrings_perm (l : List String) : List.Perm (sortStrings l) l :=
  List.perm_insertionSort strLe l

theorem sortStrings_mem (l : List String) (g : String) : g ∈ sortStrings l ↔ g ∈ l :=
  (sortStrings_perm l).mem_iff

theorem sortStrings_length (l : List String) : (sortStrings l).length = l.length :=
  (sortStrings_perm l).length_eq

theorem sortStrings_nodup (l : List String) (h : l.Nodup) : (sortStrings l).Nodup :=
  (sortStrings_perm l).nodup_iff.mpr h

theorem insertSet_mem (l : List String) (x g : String) : g ∈ insertSet l x ↔ g = x ∨ g ∈ l := by
  by_cases hx : x ∈ l
  · simp only [insertSet, if_pos hx]
    constructor
    · exact fun h => Or.inr h
    · rintro (rfl | h)
      · exact hx
      · exact h
  · simp [insertSet, if_neg hx, List.mem_append, or_comm]

theorem insertSet_mem_self (l : List String) (x : String) : x ∈ insertSet l x :=
  (insertSet_mem l x x).mpr (Or.inl rfl)

theorem insertSet_mem_of_mem (l : List String) (x g : String) (h : g ∈ l) : g ∈ insertSet l x :=
  (insertSet_mem l x g).mpr (Or.inr h)

theorem insertSet_nodup (l : List String) (x : String) (h : l.Nodup) : (insertSet l x).Nodup := by
  by_cases hx : x ∈ l
  · simpa [insertSet, if_pos hx] using h
  · simp [insertSet, if_neg hx, List.nodup_append, h, hx]

theorem insertSet_fresh (l : List String) (x : String) (hx : x ∉ l) : insertSet l x = l ++ [x] := by
  simp [insertSet, hx]

theorem foldl_insertSet_nodup (xs : List String) :
    ∀ acc : List String, acc.Nodup → (xs.foldl insertSet acc).Nodup := by
  induction xs with
  | nil => exact fun acc h => h
  | cons x rest ih => exact fun acc h => ih _ (insertSet_nodup _ _ h)

theorem setAdds_nodup (xs : List String) : (setAdds xs).Nodup :=
  foldl_insertSet_nodup xs [] List.nodup_nil

theorem foldl_insertSet_mem (xs : List String) :
    ∀ (acc : List String) (g : String), g ∈ xs.foldl insertSet acc → g ∈ acc ∨ g ∈ xs := by
  induction xs with
  | nil => exact fun acc g h => Or.inl h
  | cons x rest ih =>
    intro acc g h
    rcases ih _ g h with h2 | h2
    · rcases (insertSet_mem acc x g).mp h2 with rfl | h3
      · exact Or.inr (List.mem_cons_self _ _)
      · exact Or.inl h3
    · exact Or.inr (List.mem_cons_of_mem _ h2)

theorem setAdds_mem (xs : List String) (g : String) (h : g ∈ setAdds xs) : g ∈ xs := by
  rcases foldl_insertSet_mem xs [] g h with h2 | h2
  · simp at h2
  · exact h2

theorem objSet_self_mem (m : List (String × List String)) (k : String) (v : List String) :
    (k, v) ∈ objSet m k v := by
  induction m with
  | nil => simp [objSet]
  | cons p rest ih =>
    obtain ⟨k2, v2⟩ := p
    by_cases h : k2 = k
    · subst h
      simp [objSet]
    · simp only [objSet, if_neg h]
      exact List.mem_cons_of_mem _ ih

theorem objSet_mem_of_ne (m : List (String × List String)) (k k1 : String)
    (v v1 : List String) (h : (k1, v1) ∈ m) (hne : k1 ≠ k) : (k1, v1) ∈ objSet m k v := by
  induction m with
  | nil => simp at h
  | cons p rest ih =>
    obtain ⟨k2, v2⟩ := p
    rcases List.mem_cons.mp h with heq | hmem
    · injection heq with e1 e2
      subst e1; subst e2
      simp [objSet, hne]
    · by_cases h2 : k2 = k
      · simp only [objSet, if_pos h2]
        exact List.mem_cons_of_mem _ hmem
      · simp only [objSet, if_neg h2]
        exact List.mem_cons_of_mem _ (ih hmem)

theorem objSet_values (m : List (String × List String)) (k : String) (v : List String)
    (p : String × List String) (h : p ∈ objSet m k v) : p.2 = v ∨ p ∈ m := by
  induction m with
  | nil =>
    simp only [objSet, List.mem_singleton] at h
    subst h
    exact Or.inl rfl
  | cons q rest ih =>
    obtain ⟨k2, v2⟩ := q
    by_cases h2 : k2 = k
    · simp only [objSet, if_pos h2] at h
      rcases List.mem_cons.mp h with heq | hmem
      · subst heq
        exact Or.inl rfl
      · exact Or.inr (List.mem_cons_of_mem _ hmem)
    · simp only [objSet, if_neg h2] at h
      rcases List.mem_cons.mp h with heq | hmem
      · subst heq
        exact Or.inr (List.mem_cons_self _ _)
      · rcases ih hmem with h3 | h3
        · exact Or.inl h3
        · exact Or.inr (List.mem_cons_of_mem _ h3)

theorem keysOf_objSet_mem (m : List (String × List String)) (k : String) (v : List String)
    (g : String) : g ∈ keysOf (objSet m k v) ↔ g = k ∨ g ∈ keysOf m := by
  induction m with
  | nil => simp [objSet, keysOf]
  | cons p rest ih =>
    obtain ⟨k2, v2⟩ := p
    by_cases h : k2 = k
    · subst h
      simp only [objSet, if_pos rfl, keysOf, List.map_cons]
      simp only [keysOf] at *
      constructor
      · rintro h2
        rcases List.mem_cons.mp h2 with rfl | h3
        · exact Or.inl rfl
        · exact Or.inr (List.mem_cons_of_mem _ h3)
      · rintro (rfl | h2)
        · exact List.mem_cons_self _ _
        · exact h2
    · simp only [objSet, if_neg h, keysOf, List.map_cons, List.mem_cons] at ih ⊢
      rw [ih]
      tauto

theorem keysOf_pair_mem (m : List (String × List String)) (k : String) (v : List String)
    (h : (k, v) ∈ m) : k ∈ keysOf m :=
  List.mem_map_of_mem Prod.fst h

theorem keysOf_objSet_fresh (m : List (String × List String)) (k : String) (v : List String)
    (h : k ∉ keysOf m) : keysOf (objSet m k v) = keysOf m ++ [k] := by
  induction m with
  | nil => simp [objSet, keysOf]
  | cons p rest ih =>
    obtain ⟨k2, v2⟩ := p
    have h2 : k2 ≠ k := by
      intro e
      exact h (by rw [keysOf, List.map_cons, e]; exact List.mem_cons_self _ _)
    have h3 : k ∉ keysOf rest := fun e =>
      h (by rw [keysOf, List.map_cons]; exact List.mem_cons_of_mem _ e)
    simp only [objSet, if_neg h2, keysOf, List.map_cons, List.cons_append]
    exact congrArg (fun l => k2 :: l) (ih h3)

/-! ## Path resolver: normalization -/

theorem normStep_good (stack : List String) (h : ∀ s ∈ stack, goodSeg s) (seg : String) :
    ∀ s ∈ normStep stack seg, goodSeg s := by
  by_cases h1 : seg = "" ∨ seg = "."
  · simpa [normStep, h1] using h
  · by_cases h2 : seg = ".."
    · intro s hs
      simp only [normStep, if_neg h1, if_pos h2] at hs
      exact h s ((List.dropLast_sublist stack).subset hs)
    · intro s hs
      simp only [normStep, if_neg h1, if_neg h2] at hs
      rcases List.mem_append.mp hs with h3 | h3
      · exact h s h3
      · push_neg at h1
        rcases List.mem_singleton.mp h3 with rfl
        exact ⟨h1.1, h1.2, h2⟩

theorem foldl_normStep_good (segs : List String) :
    ∀ stack, (∀ s ∈ stack, goodSeg s) → ∀ s ∈ segs.foldl normStep stack, goodSeg s := by
  induction segs with
  | nil => exact fun stack h => h
  | cons x rest ih => exact fun stack h => ih _ (normStep_good stack h x)

theorem normSegs_good (segs : List String) : ∀ s ∈ normSegs segs, goodSeg s :=
  foldl_normStep_good segs [] (by simp)

/-! ## Claim theorems (first group) -/

/-- C2: the include-target resolver strips the leading separator of an
absolute-style target and resolves it under the source directory, so its
result does not depend on the includer; it resolves a relative target
against the includer's parent directory, so its result does not depend on
the scanned root; and in both cases the result is normalized, containing
no empty, `.` or `..` segments. -/
theorem path_resolver_contract :
    (∀ (directory inc1 inc2 : List String) (t : String), jsStartsWith t "/" = true →
        resolveTarget directory inc1 t = resolveTarget directory inc2 t
        ∧ resolveTarget directory inc1 t
            = normSegs (sphinxSourceDir directory ++ jsSplit (strDrop t 1) "/"))
    ∧ (∀ (d1 d2 inc1 inc2 : List String) (t : String), jsStartsWith t "/" = false →
        inc1.dropLast = inc2.dropLast → resolveTarget d1 inc1 t = resolveTarget d2 inc2 t)
    ∧ (∀ (directory inc : List String) (t s : String),
        s ∈ resolveTarget directory inc t → s ≠ "" ∧ s ≠ "." ∧ s ≠ "..") := by
  refine ⟨?_, ?_, ?_⟩
  · intro directory inc1 inc2 t ht
    rw [resolveTarget, resolveTarget, if_pos ht, if_pos ht]
    exact ⟨rfl, rfl⟩
  · intro d1 d2 inc1 inc2 t ht hdir
    rw [resolveTarget, resolveTarget, if_neg (by simp [ht]), if_neg (by simp [ht]), hdir]
  · intro directory inc t s hs
    unfold resolveTarget at hs
    split at hs
    · exact normSegs_good _ s hs
    · exact normSegs_good _ s hs

/-- C2 witness: the contract evaluated at concrete paths and targets. -/
theorem path_resolver_contract_witness :
    resolveTarget ["r"] ["r", "source", "page.rst"] "/includes/foo.rst"
      = resolveTarget ["r"] ["r", "source", "sub", "deep.rst"] "/includes/foo.rst"
    ∧ resolveTarget ["r"] ["r", "source", "page.rst"] "../other.rst"
      = resolveTarget ["q", "z"] ["r", "source", "img.rst"] "../other.rst"
    ∧ ("other.rst" ≠ "" ∧ "other.rst" ≠ "." ∧ "other.rst" ≠ "..") :=
  ⟨(path_resolver_contract.1 ["r"] ["r", "source", "page.rst"] ["r", "source", "sub", "deep.rst"]
      "/includes/foo.rst" (by decide)).1,
   path_resolver_contract.2.1 ["r"] ["q", "z"] ["r", "source", "page.rst"]
      ["r", "source", "img.rst"] "../other.rst" (by decide) (by decide),
   path_resolver_contract.2.2 ["r"] ["r", "source", "page.rst"] "../other.rst" "other.rst"
      (by decide)⟩

/-! ## Classification loop lemmas -/

theorem classifyStep_eq (directory : List String) (index : IncludeIndex)
    (acc : List (String × List String) × List String) (f : String) :
    classifyStep directory index acc f =
      if takesImpacted index directory f = true then
        (objSet acc.1 f (sortStrings (impactValue index directory f)), acc.2)
      else (acc.1, insertSet acc.2 f) := by
  unfold classifyStep takesImpacted impactValue
  cases hl : lookupIndex index (absOfChanged directory f) with
  | none => simp
  | some containers =>
    by_cases hc : 0 < (acceptedIncluders directory containers).length
    · simp [hc]
    · simp [hc]

theorem classify_fold_pair_preserved (index : IncludeIndex) (directory : List String)
    (changed : List String) (f : String) :
    ∀ acc : List (String × List String) × List String,
      (f, sortStrings (impactValue index directory f)) ∈ acc.1 →
      (f, sortStrings (impactValue index directory f))
        ∈ (changed.foldl (classifyStep directory index) acc).1 := by
  induction changed with
  | nil => exact fun acc h => h
  | cons g rest ih =>
    intro acc h
    simp only [List.foldl_cons]
    apply ih
    rw [classifyStep_eq]
    by_cases hg : takesImpacted index directory g = true
    · rw [if_pos hg]
      by_cases hgf : f = g
      · subst hgf
        exact objSet_self_mem _ _ _
      · exact objSet_mem_of_ne _ _ _ _ _ h hgf
    · rw [if_neg hg]
      exact h

theorem classify_fold_direct_preserved (index : IncludeIndex) (directory : List String)
    (changed : List String) (f : String) :
    ∀ acc : List (String × List String) × List String,
      f ∈ acc.2 → f ∈ (changed.foldl (classifyStep directory index) acc).2 := by
  induction changed with
  | nil => exact fun acc h => h
  | cons g rest ih =>
    intro acc h
    simp only [List.foldl_cons]
    apply ih
    rw [classifyStep_eq]
    by_cases hg : takesImpacted index directory g = true
    · rw [if_pos hg]
      exact h
    · rw [if_neg hg]
      exact insertSet_mem_of_mem _ _ _ h

theorem classify_fold_inserts (index : IncludeIndex) (directory : List String)
    (changed : List String) (f : String) :
    ∀ acc : List (String × List String) × List String, f ∈ changed →
      (takesImpacted index directory f = true →
        (f, sortStrings (impactValue index directory f))
          ∈ (changed.foldl (classifyStep directory index) acc).1)
      ∧ (takesImpacted index directory f = false →
        f ∈ (changed.foldl (classifyStep directory index) acc).2) := by
  induction changed with
  | nil =>
    intro acc hf
    cases hf
  | cons g rest ih =>
    intro acc hf
    rcases List.mem_cons.mp hf with rfl | hf2
    · constructor
      · intro ht
        simp only [List.foldl_cons]
        apply classify_fold_pair_preserved
        rw [classifyStep_eq, if_pos ht]
        exact objSet_self_mem _ _ _
      · intro hfalse
        simp only [List.foldl_cons]
        apply classify_fold_direct_preserved
        rw [classifyStep_eq, if_neg (by simp [hfalse])]
        exact insertSet_mem_self _ _
    · simp only [List.foldl_cons]
      exact ih _ hf2

theorem classify_fold_sides (index : IncludeIndex) (directory : List String)
    (changed : List String) :
    ∀ acc : List (String × List String) × List String,
      (∀ g ∈ keysOf acc.1, takesImpacted index directory g = true) →
      (∀ g ∈ acc.2, takesImpacted index directory g = false) →
      (∀ g ∈ keysOf (changed.foldl (classifyStep directory index) acc).1,
          takesImpacted index directory g = true)
      ∧ (∀ g ∈ (changed.foldl (classifyStep directory index) acc).2,
          takesImpacted index directory g = false) := by
  induction changed with
  | nil => exact fun acc h1 h2 => ⟨h1, h2⟩
  | cons x rest ih =>
    intro acc h1 h2
    simp only [List.foldl_cons]
    apply ih <;> rw [classifyStep_eq]
    · by_cases hx : takesImpacted index directory x = true
      · rw [if_pos hx]
        intro g hg
        rcases (keysOf_objSet_mem _ _ _ g).mp hg with rfl | hg2
        · exact hx
        · exact h1 g hg2
      · rw [if_neg hx]
        exact h1
    · by_cases hx : takesImpacted index directory x = true
      · rw [if_pos hx]
        exact h2
      · rw [if_neg hx]
        intro g hg
        rcases (insertSet_mem _ _ _).mp hg with rfl | hg2
        · exact Bool.not_eq_true _ ▸ Bool.of_not_eq_true hx
        · exact h2 g hg2

theorem classify_fold_count (index : IncludeIndex) (directory : List String)
    (changed : List String) :
    ∀ acc : List (String × List String) × List String, changed.Nodup →
      (∀ f ∈ changed, f ∉ keysOf acc.1 ∧ f ∉ acc.2) →
      (keysOf (changed.foldl (classifyStep directory index) acc).1).length
        + (changed.foldl (classifyStep directory index) acc).2.length
        = (keysOf acc.1).length + acc.2.length + changed.length := by
  induction changed with
  | nil =>
    intro acc _ _
    simp
  | cons x rest ih =>
    intro acc hnd hfresh
    have hx := hfresh x (List.mem_cons_self x rest)
    have hxrest : x ∉ rest := (List.nodup_cons.mp hnd).1
    have hnd2 : rest.Nodup := (List.nodup_cons.mp hnd).2
    simp only [List.foldl_cons]
    by_cases ht : takesImpacted index directory x = true
    · have hstep : classifyStep directory index acc x
          = (objSet acc.1 x (sortStrings (impactValue index directory x)), acc.2) := by
        rw [classifyStep_eq, if_pos ht]
      rw [hstep, ih _ hnd2 ?_]
      · have hkeys := keysOf_objSet_fresh acc.1 x (sortStrings (impactValue index directory x)) hx.1
        simp only [hkeys, List.length_append, List.length_singleton, List.length_cons,
          List.length_nil]
        omega
      · intro f hf
        have hfr := hfresh f (List.mem_cons_of_mem _ hf)
        have hfne : f ≠ x := fun e => hxrest (e ▸ hf)
        constructor
        · intro hmem
          rcases (keysOf_objSet_mem _ _ _ f).mp hmem with e | h2
          · exact hfne e
          · exact hfr.1 h2
        · exact hfr.2
    · have hstep : classifyStep directory index acc x = (acc.1, insertSet acc.2 x) := by
        rw [classifyStep_eq, if_neg ht]
      rw [hstep, ih _ hnd2 ?_]
      · rw [insertSet_fresh acc.2 x hx.2]
        simp only [List.length_append, List.length_singleton, List.length_cons, List.length_nil]
        omega
      · intro f hf
        have hfr := hfresh f (List.mem_cons_of_mem _ hf)
        have hfne : f ≠ x := fun e => hxrest (e ▸ hf)
        refine ⟨hfr.1, ?_⟩
        intro hmem
        rcases (insertSet_mem _ _ _).mp hmem with e | h2
        · exact hfne e
        · exact hfr.2 h2

theorem underDirectory_iff (d c : List String) : underDirectory d c = true ↔ d <+: c := by
  induction d generalizing c with
  | nil => simp [underDirectory, List.nil_prefix]
  | cons x xs ih =>
    cases c with
    | nil => simp [underDirectory]
    | cons y ys =>
      simp [underDirectory, List.cons_prefix_cons, ih, Bool.and_eq_true, beq_iff_eq]

theorem acceptedIncluders_spec (directory : List String) (containers : List (List String)) :
    ∀ s ∈ acceptedIncluders directory containers,
      ∃ c ∈ containers, underDirectory directory c = true
        ∧ s = joinSegs (c.drop directory.length) := by
  intro s hs
  have h2 := setAdds_mem _ _ hs
  simp only [List.mem_map, List.mem_filter] at h2
  obtain ⟨c, ⟨hc, hcond⟩, rfl⟩ := h2
  exact ⟨c, hc, hcond, rfl⟩

/-! ## Claim theorems (classification) -/

/-- C1 (amended): the classification is a partition of the distinct changed
files: no changed file appears both as an impacted key and as a direct
entry, every changed file appears on at least one side, and for a
duplicate-free changed-file list the number of impacted keys plus the
number of direct entries equals the number of changed files. -/
theorem classify_partition (index : IncludeIndex) (directory : List String)
    (changed : List String) :
    (∀ f, ¬(f ∈ keysOf (resolveIncludeDependencies index directory changed).1
        ∧ f ∈ (resolveIncludeDependencies index directory changed).2))
    ∧ (∀ f ∈ changed, f ∈ keysOf (resolveIncludeDependencies index directory changed).1
        ∨ f ∈ (resolveIncludeDependencies index directory changed).2)
    ∧ (changed.Nodup →
        (keysOf (resolveIncludeDependencies index directory changed).1).length
          + (resolveIncludeDependencies index directory changed).2.length
          = changed.length) := by
  have hsides := classify_fold_sides index directory changed ([], [])
    (by simp [keysOf]) (by simp)
  refine ⟨?_, ?_, ?_⟩
  · rintro f ⟨h1, h2⟩
    simp only [resolveIncludeDependencies] at h1 h2
    rw [sortStrings_mem] at h2
    have ht := hsides.1 f h1
    have hf := hsides.2 f h2
    rw [ht] at hf
    cases hf
  · intro f hf
    simp only [resolveIncludeDependencies]
    have hins := classify_fold_inserts index directory changed f ([], []) hf
    cases ht : takesImpacted index directory f with
    | true =>
      left
      exact keysOf_pair_mem _ _ _ (hins.1 ht)
    | false =>
      right
      rw [sortStrings_mem]
      exact hins.2 ht
  · intro hnd
    simp only [resolveIncludeDependencies]
    rw [sortStrings_length]
    have := classify_fold_count index directory changed ([], []) hnd
      (by intro f _; exact ⟨by simp [keysOf], by simp⟩)
    simpa [keysOf] using this

/-- C1 counterexample: for the changed-file list `["a", "a"]`, which repeats
one file, the number of impacted keys plus the number of direct entries is
1 while the number of changed files is 2, so the counting clause fails for
an arbitrary changed-file list. -/
theorem classify_partition_counterexample :
    (keysOf (resolveIncludeDependencies [] ["r"] ["a", "a"]).1).length
        + (resolveIncludeDependencies [] ["r"] ["a", "a"]).2.length = 1
    ∧ (["a", "a"] : List String).length = 2
    ∧ (1 : Nat) ≠ 2 := by decide

/-- C1 witness: the partition theorem applied to a concrete run with one
changed file and an empty index. -/
theorem classify_partition_witness :
    ("source/other.rst" ∈ keysOf (resolveIncludeDependencies [] ["r"] ["source/other.rst"]).1
      ∨ "source/other.rst" ∈ (resolveIncludeDependencies [] ["r"] ["source/other.rst"]).2)
    ∧ (keysOf (resolveIncludeDependencies [] ["r"] ["source/other.rst"]).1).length
        + (resolveIncludeDependencies [] ["r"] ["source/other.rst"]).2.length = 1 :=
  ⟨(classify_partition [] ["r"] ["source/other.rst"]).2.1 "source/other.rst" (by decide),
   (classify_partition [] ["r"] ["source/other.rst"]).2.2 (by decide)⟩

theorem classify_fold_values (index : IncludeIndex) (directory : List String)
    (changed : List String) :
    ∀ acc : List (String × List String) × List String,
      (∀ p ∈ acc.1, List.Sorted strLe p.2 ∧ p.2.Nodup) →
      ∀ p ∈ (changed.foldl (classifyStep directory index) acc).1,
        List.Sorted strLe p.2 ∧ p.2.Nodup := by
  induction changed with
  | nil => exact fun acc h => h
  | cons x rest ih =>
    intro acc hacc
    simp only [List.foldl_cons]
    apply ih
    rw [classifyStep_eq]
    by_cases hx : takesImpacted index directory x = true
    · rw [if_pos hx]
      intro p hp
      rcases objSet_values _ _ _ p hp with hv | hv
    
      · rw [hv]
        refine ⟨sortStrings_sorted _, sortStrings_nodup _ ?_⟩
        exact setAdds_nodup _
      · exact hacc p hv
    · rw [if_neg hx]
      exact hacc
  
theorem classify_fold_direct_nodup (index : IncludeIndex) (directory : List String)
    (changed : List String) :
    ∀ acc : List (String × List String) × List String,
      acc.2.Nodup → (changed.foldl (classifyStep directory index) acc).2.Nodup := by
  induction changed with
  | nil => exact fun acc h => h
  | cons x rest ih =>
    intro acc h
    simp only [List.foldl_cons]
    apply ih
    rw [classifyStep_eq]
    by_cases hx : takesImpacted index directory x = true
    · rw [if_pos hx]
      exact h
    · rw [if_neg hx]
      exact insertSet_nodup _ _ h

/-- C5: every record stored in the impacted map is a deduplicated,
lexicographically sorted list of includer paths, and the direct-changes
list is lexicographically sorted with no duplicates. -/
theorem classify_output_sorted (index : IncludeIndex) (directory : List String)
    (changed : List String) (p : String × List String)
    (hp : p ∈ (resolveIncludeDependencies index directory changed).1) :
    (List.Sorted strLe p.2 ∧ p.2.Nodup)
    ∧ List.Sorted strLe (resolveIncludeDependencies index directory changed).2
    ∧ (resolveIncludeDependencies index directory changed).2.Nodup := by
  simp only [resolveIncludeDependencies] at hp ⊢
  refine ⟨?_, sortStrings_sorted _, sortStrings_nodup _ ?_⟩
  · exact classify_fold_values index directory changed ([], []) (by simp) p hp
  · exact classify_fold_direct_nodup index directory changed ([], []) List.nodup_nil

/-- C5 witness: a target included by two files (one of them twice in the
index entry) receives both includers, deduplicated and sorted, and the
direct list of the run is sorted and duplicate-free. -/
theorem classify_output_sorted_witness :
    (List.Sorted strLe (("source/includes/foo.rst",
        ["source/a.rst", "source/b.rst"]) : String × List String).2
      ∧ ((("source/includes/foo.rst", ["source/a.rst", "source/b.rst"])
          : String × List String)).2.Nodup)
    ∧ List.Sorted strLe (resolveIncludeDependencies
        [(["r", "source", "includes", "foo.rst"],
          [["r", "source", "b.rst"], ["r", "source", "a.rst"], ["r", "source", "b.rst"]])]
        ["r"] ["source/includes/foo.rst"]).2
    ∧ (resolveIncludeDependencies
        [(["r", "source", "includes", "foo.rst"],
          [["r", "source", "b.rst"], ["r", "source", "a.rst"], ["r", "source", "b.rst"]])]
        ["r"] ["source/includes/foo.rst"]).2.Nodup :=
  classify_output_sorted
    [(["r", "source", "includes", "foo.rst"],
      [["r", "source", "b.rst"], ["r", "source", "a.rst"], ["r", "source", "b.rst"]])]
    ["r"] ["source/includes/foo.rst"]
    ("source/includes/foo.rst", ["source/a.rst", "source/b.rst"]) (by decide)

/-- C3 (amended): for a changed file whose resolved location has an index
entry, an includer is accepted exactly when the scanned root is a segment
prefix of it — that is, when it lies strictly inside the root or is the
root itself; accepted includers are recorded as root-relative paths; a
non-empty accepted set puts the file into the impacted map with the sorted
accepted set, and an empty accepted set sends the file to direct. -/
theorem classify_includer_acceptance (index : IncludeIndex) (directory : List String)
    (changed : List String) (f : String) (containers : List (List String))
    (hf : f ∈ changed)
    (hl : lookupIndex index (absOfChanged directory f) = some containers) :
    (∀ c : List String, underDirectory directory c = true ↔ directory <+: c)
    ∧ (∀ s ∈ acceptedIncluders directory containers,
        ∃ c ∈ containers, underDirectory directory c = true
          ∧ s = joinSegs (c.drop directory.length))
    ∧ (0 < (acceptedIncluders directory containers).length →
        (f, sortStrings (acceptedIncluders directory containers))
          ∈ (resolveIncludeDependencies index directory changed).1)
    ∧ ((acceptedIncluders directory containers).length = 0 →
        f ∈ (resolveIncludeDependencies index directory changed).2) := by
  have hval : impactValue index directory f = acceptedIncluders directory containers := by
    unfold impactValue
    rw [hl]
    rfl
  refine ⟨fun c => underDirectory_iff directory c, acceptedIncluders_spec directory containers,
    ?_, ?_⟩
  · intro hpos
    have ht : takesImpacted index directory f = true := by
      unfold takesImpacted
      rw [hl]
      exact decide_eq_true hpos
    have := (classify_fold_inserts index directory changed f ([], []) hf).1 ht
    rw [hval] at this
    simpa only [resolveIncludeDependencies] using this
  · intro hzero
    have ht : takesImpacted index directory f = false := by
      unfold takesImpacted
      rw [hl]
      simp [hzero]
    have := (classify_fold_inserts index directory changed f ([], []) hf).2 ht
    simp only [resolveIncludeDependencies]
    rw [sortStrings_mem]
    exact this

/-- C3 counterexample: an index entry whose only includer is the scanned
root itself.  The root does not lie strictly inside the root, yet the code
accepts it (the `=== directory` disjunct), records the empty relative path
and classifies the changed file as impacted; under the claim the candidate
set would be empty and the file would join the direct list. -/
theorem classify_root_includer_counterexample :
    underDirectory ["r"] ["r"] = true
    ∧ ¬((["r"] : List String) ≠ ["r"] ∧ (["r"] : List String) <+: ["r"])
    ∧ (resolveIncludeDependencies [(["r", "x"], [["r"]])] ["r"] ["x"]).1 = [("x", [""])]
    ∧ (resolveIncludeDependencies [(["r", "x"], [["r"]])] ["r"] ["x"]).2 = [] := by
  refine ⟨by decide, ?_, by decide, by decide⟩
  rintro ⟨h, _⟩
  exact h rfl

/-- C3 witness: the acceptance theorem applied to a concrete index entry
with one includer strictly inside the root. -/
theorem classify_includer_acceptance_witness :
    ("source/includes/foo.rst", sortStrings (acceptedIncluders ["r"] [["r", "source", "page.rst"]]))
      ∈ (resolveIncludeDependencies
          [(["r", "source", "includes", "foo.rst"], [["r", "source", "page.rst"]])]
          ["r"] ["source/includes/foo.rst"]).1 :=
  (classify_includer_acceptance
    [(["r", "source", "includes", "foo.rst"], [["r", "source", "page.rst"]])]
    ["r"] ["source/includes/foo.rst"] "source/includes/foo.rst" [["r", "source", "page.rst"]]
    (by decide) (by decide)).2.2.1 (by decide)

/-! ## Include extractor -/

theorem foldl_append_eq_join (f : String → List String) (ls : List String) :
    ∀ acc : List String, ls.foldl (fun a l => a ++ f l) acc = acc ++ (ls.map f).flatten := by
  induction ls with
  | nil =>
    intro acc
    simp
  | cons x rest ih =>
    intro acc
    simp [ih, List.append_assoc]

/-- C4 (amended): for a line whose trimmed form carries the
`.. include::` or `.. literalinclude::` marker, the extractor splits the
trimmed line on `"::"` and takes the piece between the first and the
second separator (which is the entire remainder only when no further
`"::"` occurs in it), trimmed; an empty piece is silently skipped, a
non-marker line contributes nothing, and the whole-file extraction is the
concatenation of the per-line results. -/
theorem include_extractor_behavior :
    (∀ line : String, markerHolds (jsTrim line) = false → lineTarget line = [])
    ∧ (∀ (line p0 p1 : String) (rest : List String), markerHolds (jsTrim line) = true →
        jsSplit (jsTrim line) "::" = p0 :: p1 :: rest →
        lineTarget line = if jsTrim p1 = "" then [] else [jsTrim p1])
    ∧ (∀ (line p0 p1 : String), markerHolds (jsTrim line) = true →
        jsSplit (jsTrim line) "::" = [p0, p1] →
        lineTarget line = lineTargetFullRemainder line)
    ∧ (∀ content : String,
        extractIncludesFromContent content = ((jsSplit content "\n").map lineTarget).flatten) := by
  refine ⟨?_, ?_, ?_, ?_⟩
  · intro line hm
    unfold markerHolds at hm
    simp only [lineTarget, hm]
    simp
  · intro line p0 p1 rest hm hsplit
    unfold markerHolds at hm
    simp only [lineTarget, hm, if_pos, hsplit]
    simp only [List.length_cons, List.getD_cons_succ, List.getD_cons_zero, if_true]
    have hlen : 1 < rest.length + 1 + 1 := by omega
    rw [if_pos hlen]
    by_cases he : jsTrim p1 = ""
    · simp [he]
    · simp [he]
  · intro line p0 p1 hm hsplit
    unfold markerHolds at hm
    simp only [lineTarget, lineTargetFullRemainder, hm, hsplit]
    simp [strIntercalate, List.getD_cons_succ, List.getD_cons_zero]
  · intro content
    unfold extractIncludesFromContent
    rw [foldl_append_eq_join]
    simp

/-- C4 counterexample: on the line `.. include:: foo::bar` the code
extracts only `foo`, the piece before the next `"::"`, while the claim's
"entire remainder of the line" reading extracts `foo::bar`. -/
theorem include_extractor_counterexample :
    extractIncludesFromContent ".. include:: foo::bar" = ["foo"]
    ∧ lineTargetFullRemainder ".. include:: foo::bar" = ["foo::bar"]
    ∧ (["foo"] : List String) ≠ ["foo::bar"] := by decide

/-- C4 witness: the amended extraction rule evaluated on a non-marker line
and on a well-formed include directive. -/
theorem include_extractor_behavior_witness :
    lineTarget "plain text" = []
    ∧ lineTarget ".. include:: /includes/a.rst"
        = (if jsTrim " /includes/a.rst" = "" then [] else [jsTrim " /includes/a.rst"])
    ∧ lineTarget ".. literalinclude:: code.txt"
        = lineTargetFullRemainder ".. literalinclude:: code.txt" :=
  ⟨include_extractor_behavior.1 "plain text" (by decide),
   include_extractor_behavior.2.1 ".. include:: /includes/a.rst" ".. include"
     " /includes/a.rst" [] (by decide) (by decide),
   include_extractor_behavior.2.2.1 ".. literalinclude:: code.txt" ".. literalinclude"
     " code.txt" (by decide) (by decide)⟩

/-! ## Markdown link formatting -/

/-- C6: the Markdown link formatter returns the path unchanged when the
base URL is absent or empty, when the first path segment is not `source`,
or when the second segment is one of the ignored directories; otherwise it
strips the `source/` prefix, strips one trailing `.txt` or `.rst`, leads
with `/`, joins to the base URL with its trailing slash removed, and
returns a Markdown link — as witnessed by the two scenario evaluations. -/
theorem markdown_link_contract :
    (∀ p : String, createNetlifyMarkdownLink p none = p)
    ∧ (∀ p : String, createNetlifyMarkdownLink p (some "") = p)
    ∧ (∀ p url : String, (jsSplit p "/").headD "" ≠ "source" →
        createNetlifyMarkdownLink p (some url) = p)
    ∧ (∀ p url : String, (jsSplit p "/").getD 1 "" ∈ IGNORED_DIRS_FOR_NETLIFY_LINKS →
        createNetlifyMarkdownLink p (some url) = p)
    ∧ createNetlifyMarkdownLink "source/includes/foo.rst" (some "https://x.test/")
        = "source/includes/foo.rst"
    ∧ createNetlifyMarkdownLink "source/page.txt" (some "https://x.test/")
        = "[source/page.txt](https://x.test/page)" := by
  refine ⟨fun p => rfl, fun p => by simp [createNetlifyMarkdownLink], ?_, ?_, by decide, by decide⟩
  · intro p url h
    simp only [createNetlifyMarkdownLink]
    by_cases hurl : url = ""
    · rw [if_pos hurl]
    · rw [if_neg hurl]
      by_cases hlen : (jsSplit p "/").length = 0
      · rw [if_pos hlen]
      · rw [if_neg hlen, if_pos h]
  · intro p url h
    have hnot : ("" : String) ∉ IGNORED_DIRS_FOR_NETLIFY_LINKS := by decide
    have hlen1 : 1 < (jsSplit p "/").length := by
      by_contra hle
      push_neg at hle
      rw [List.getD_eq_default _ _ hle] at h
      exact hnot h
    simp only [createNetlifyMarkdownLink]
    by_cases hurl : url = ""
    · rw [if_pos hurl]
    · rw [if_neg hurl, if_neg (by omega)]
      by_cases hhead : (jsSplit p "/").headD "" ≠ "source"
      · rw [if_pos hhead]
      · rw [if_neg hhead, if_pos ⟨hlen1, h⟩]

/-- C6 witness: the unchanged-path branches evaluated at a path outside
`source` and at a path under an ignored second-level directory. -/
theorem markdown_link_contract_witness :
    createNetlifyMarkdownLink "docs/readme.rst" (some "https://x.test/") = "docs/readme.rst"
    ∧ createNetlifyMarkdownLink "source/images/pic.rst" (some "https://x.test/")
        = "source/images/pic.rst" :=
  ⟨markdown_link_contract.2.2.1 "docs/readme.rst" "https://x.test/" (by decide),
   markdown_link_contract.2.2.2.1 "source/images/pic.rst" "https://x.test/" (by decide)⟩

/-! ## Error handling and the variant handler -/

/-- C7: when the diff collaborator throws, `getChangedFiles` returns the
empty list, it also returns the empty list when a reference value is
missing, and a run with valid references whose diff throws reports
"no file changes" through the status sink instead of failing the build. -/
theorem diff_failure_degrades (prBase prHead e : String)
    (diffResult : Except String String) (index : IncludeIndex) (directory : List String) :
    getChangedFiles prBase prHead (Except.error e) = []
    ∧ (prBase = "" ∨ prHead = "" → getChangedFiles prBase prHead diffResult = [])
    ∧ (prBase ≠ "" → prHead ≠ "" →
        onSuccessOutcome prBase prHead (Except.error e) index directory
          = RunReport.statusShow "No file changes detected between specified branches." [] []) := by
  have h1 : getChangedFiles prBase prHead (Except.error e) = [] := by
    unfold getChangedFiles
    split
    · rfl
    · rfl
  refine ⟨h1, ?_, ?_⟩
  · intro h
    unfold getChangedFiles
    rw [if_pos h]
  · intro hb hh
    unfold onSuccessOutcome
    rw [if_neg hb, if_neg hh]
    simp [h1]

/-- C7 witness: the degradation evaluated for a failing diff, for a missing
base reference, and for a full run with a failing diff. -/
theorem diff_failure_degrades_witness :
    getChangedFiles "main" "feature" (Except.error "fatal: bad revision") = []
    ∧ getChangedFiles "" "feature" (Except.ok "a.rst") = []
    ∧ onSuccessOutcome "main" "feature" (Except.error "fatal: bad revision") [] ["r"]
        = RunReport.statusShow "No file changes detected between specified branches." [] [] :=
  ⟨(diff_failure_degrades "main" "feature" "fatal: bad revision" (Except.ok "") [] ["r"]).1,
   (diff_failure_degrades "" "feature" "" (Except.ok "a.rst") [] ["r"]).2.1 (Or.inl rfl),
   (diff_failure_degrades "main" "feature" "fatal: bad revision" (Except.ok "") [] ["r"]).2.2
     (by decide) (by decide)⟩

/-- C8: a directory whose listing fails contributes nothing to the scan,
and inside any readable directory it cancels only its own sub-traversal:
the walk of the surrounding entries is exactly the walk with the
unreadable directory removed. -/
theorem walk_unreadable_dir_isolated :
    (∀ (dirPath : List String) (name : String), walkSync dirPath (FsNode.dir name none) = [])
    ∧ (∀ (dirPath : List String) (entries1 entries2 : List FsNode) (name : String),
        walkChildren dirPath (entries1 ++ FsNode.dir name none :: entries2)
          = walkChildren dirPath entries1 ++ walkChildren dirPath entries2) := by
  constructor
  · intro dirPath name
    rfl
  · intro dirPath entries1 entries2 name
    induction entries1 with
    | nil => simp [walkChildren, walkEntry]
    | cons d rest ih => simp [walkChildren, ih]

/-- C9: the include extractor returns the normal empty result when the
location does not exist or is not a regular file, and a throwing read is
swallowed, returning what was extracted before the failure — nothing,
since the read precedes the extraction loop; being a total function it
never raises. -/
theorem extractor_swallows_failures (fsys : FileSystem) (filePath : List String) :
    (fsys.existsSync filePath = false ∨ fsys.statIsFile filePath = false →
        extractIncludeFiles fsys filePath = [])
    ∧ (∀ e : Unit, fsys.readFileSync filePath = Except.error e →
        extractIncludeFiles fsys filePath = []) := by
  constructor
  · intro h
    unfold extractIncludeFiles
    rcases h with h | h <;> simp [h]
  · intro e he
    unfold extractIncludeFiles
    split
    · rfl
    · rw [he]

/-- C9 witness: the extractor evaluated on a missing file and on a file
whose read throws. -/
theorem extractor_swallows_failures_witness :
    extractIncludeFiles ⟨fun _ => false, fun _ => true, fun _ => Except.ok ""⟩ ["r", "a.rst"] = []
    ∧ extractIncludeFiles ⟨fun _ => true, fun _ => true, fun _ => Except.error ()⟩
        ["r", "a.rst"] = [] :=
  ⟨(extractor_swallows_failures ⟨fun _ => false, fun _ => true, fun _ => Except.ok ""⟩
      ["r", "a.rst"]).1 (Or.inl rfl),
   (extractor_swallows_failures ⟨fun _ => true, fun _ => true, fun _ => Except.error ()⟩
      ["r", "a.rst"]).2 () rfl⟩

theorem keysOf_alistPush_mem (m : List (String × List String)) (k : String) (v : String)
    (g : String) : g ∈ keysOf (alistPush m k v) ↔ g = k ∨ g ∈ keysOf m := by
  induction m with
  | nil => simp [alistPush, keysOf]
  | cons p rest ih =>
    obtain ⟨k2, vs⟩ := p
    by_cases h : k2 = k
    · subst h
      simp [alistPush, keysOf, List.mem_cons]
    · simp only [alistPush, if_neg h, keysOf, List.map_cons, List.mem_cons] at ih ⊢
      rw [ih]
      tauto

theorem variant_inner_keys (files : List (String × String)) (c : String) :
    ∀ (m : List (String × List String)) (g : String),
      g ∈ keysOf (files.foldl
        (fun m f => if variantMatchesFile c f.2 then alistPush m c f.1 else m) m) →
      g = c ∨ g ∈ keysOf m := by
  induction files with
  | nil => exact fun m g h => Or.inr h
  | cons f rest ih =>
    intro m g h
    simp only [List.foldl_cons] at h
    rcases ih _ g h with h2 | h2
    · exact Or.inl h2
    · by_cases hm : variantMatchesFile c f.2 = true
      · rw [if_pos hm] at h2
        rcases (keysOf_alistPush_mem _ _ _ g).mp h2 with h3 | h3
        · exact Or.inl h3
        · exact Or.inr h3
      · rw [if_neg hm] at h2
        exact Or.inr h2

theorem variant_fold_keys (files : List (String × String)) (changedFiles : List String) :
    ∀ m : List (String × List String),
      (∀ g ∈ keysOf m, jsStartsWith g "source/includes/" = true) →
      ∀ g ∈ keysOf (changedFiles.foldl (variantStep files) m),
        jsStartsWith g "source/includes/" = true := by
  induction changedFiles with
  | nil => exact fun m h => h
  | cons c rest ih =>
    intro m hm
    simp only [List.foldl_cons]
    apply ih
    intro g hg
    unfold variantStep at hg
    by_cases hc : jsStartsWith c "source/includes/" = true
    · rw [if_pos hc] at hg
      rcases variant_inner_keys files c m g hg with rfl | h2
      · exact hc
      · exact hm g h2
    · rw [if_neg hc] at hg
      exact hm g hg

/-- C10: in the substring-matching variant mode, every key of the produced
impact map starts with `source/includes/`: any other changed file is
omitted from the output entirely, and the result carries no direct-changes
component at all. -/
theorem variant_only_includes_keys (files : List (String × String))
    (changedFiles : List String) (g : String)
    (hg : g ∈ keysOf (variantClassify files changedFiles)) :
    jsStartsWith g "source/includes/" = true :=
  variant_fold_keys files changedFiles [] (by simp [keysOf]) g hg

/-- C10 witness: a concrete run of the variant mode in which the changed
file under `source/includes/` is matched by one scanned page. -/
theorem variant_only_includes_keys_witness :
    jsStartsWith "source/includes/foo.rst" "source/includes/" = true :=
  variant_only_includes_keys
    [("source/page.rst", ".. include:: source/includes/foo.rst")]
    ["source/includes/foo.rst", "source/other.rst"] "source/includes/foo.rst" (by decide)
